import Mathlib

/-!
Shallow embedding of the layering (rank) phase of the `rust-sugiyama` crate.

The development embeds, directly from the Rust sources:

* `src/algorithm/p1_layering/mod.rs` — `rank`, `leave_edge`, `enter_edge`,
  `is_head_to_tail`, `normalize` (the live module tree);
* `src/graphs/p1_layering/mod.rs` — `UnlayeredGraph::initial_ranking`,
  `FeasibleTree::rank` (an older, parallel module tree kept in the crate);
* `src/phases/p1_layering/tight_tree_dfs.rs` — `TightTreeDFS::tight_tree`
  (another parallel module tree);
* `src/lib.rs` — `from_vertices_and_edges`.

Rust `panic!`/`unwrap` failure is modelled by `Option`: a function returns
`none` exactly when the source would panic.  Machine integers (`i32`, `isize`)
are modelled by `Int` (no arithmetic here comes near overflow), `u32`/`usize`
indices by `Nat`.  `petgraph::StableDiGraph` node and edge indices are list
positions: the embedded graphs perform no removals, so index iteration order
is ascending, matching `edge_indices()` / `node_indices()`.
Functions whose defining code is not part of the sources at hand (the helper
`slack` and the cut-value initialisation) are modelled from the spec and are
marked as such in their doc comments.
-/

namespace RustSugiyama

/-! ### List helpers mirroring Rust iterator semantics -/

/-- Rust `Iterator::min_by` over a list of `Nat` keys compared through `f`:
the fold keeps the earlier element on ties and replaces the accumulator only
when the new key is strictly smaller, so the first minimum is returned. -/
def rustMinBy (f : Nat → Int) : List Nat → Option Nat
  | [] => none
  | x :: xs => some (xs.foldl (fun acc y => if f y < f acc then y else acc) x)

/-- Rust `Iterator::min` over `isize` values (`None` on an empty iterator). -/
def listMinQ : List Int → Option Int
  | [] => none
  | x :: xs => some (xs.foldl min x)

/-- Rust `.max().unwrap_or(0)` over an iterator of `isize` values. -/
def maxOr0 : List Int → Int
  | [] => 0
  | x :: xs => xs.foldl max x

/-! ### The `algorithm/p1_layering` module

`Vertex` and `Edge` live in `algorithm/mod.rs`; the fields below are the ones
read by the embedded functions (`rank`, `low`, `lim` on vertices; `weight`,
`cut_value`, `is_tree_edge` on edges).  Fields not read here (ids, sizes,
ordering and coordinate scratch) are omitted. -/

structure Vertex where
  rank : Int
  low : Nat
  lim : Nat
  deriving DecidableEq

structure Edge where
  weight : Nat
  cut_value : Option Int
  is_tree_edge : Bool
  deriving DecidableEq

/-- One edge of a `StableDiGraph<Vertex, Edge>`: endpoint node indices plus
the edge weight record. -/
structure ERec where
  tail : Nat
  head : Nat
  data : Edge
  deriving DecidableEq

/-- A `StableDiGraph<Vertex, Edge>` without removals: node index `i` is the
`i`-th entry of `verts`, edge index `e` the `e`-th entry of `edges`. -/
structure AGraph where
  verts : List Vertex
  edges : List ERec
  deriving DecidableEq

/-- `graph[v]` for a node index.  The Rust indexing panics on a stale index;
all uses below are guarded by bounds that hold in the source, so the default
value is never read by any theorem in this file. -/
def vertAt (g : AGraph) (i : Nat) : Vertex :=
  g.verts.getD i ⟨0, 0, 0⟩

/-- `graph[e]` for an edge index (same convention as `vertAt`). -/
def edgeAt (g : AGraph) (e : Nat) : ERec :=
  g.edges.getD e ⟨0, 0, ⟨1, none, false⟩⟩

/-- `graph.edge_endpoints(e)`: `none` when the edge index is out of range
(the source `unwrap`s the result, i.e. panics there). -/
def edgeEndpoints (g : AGraph) (e : Nat) : Option (Nat × Nat) :=
  (g.edges.get? e).map (fun r => (r.tail, r.head))

/-- Modelled from the spec: the helper `slack` of `algorithm/mod.rs` is not
among the sources at hand; the spec defines
`slack(e) = rank(head(e)) − rank(tail(e)) − minimum_length`. -/
def slack (g : AGraph) (e : Nat) (minimum_length : Int) : Int :=
  (vertAt g (edgeAt g e).head).rank - (vertAt g (edgeAt g e).tail).rank - minimum_length

/-- The `low/lim` interval test `u.low <= w.lim && w.lim <= u.lim`: whether
`w` lies in the subtree of `u` under a valid post-order labelling. -/
def inSubtreeU (u w : Vertex) : Bool :=
  decide (u.low ≤ w.lim) && decide (w.lim ≤ u.lim)

/-- `is_head_to_tail` from `algorithm/p1_layering/mod.rs`: the candidate edge
must go from the head component to the tail component of the tree minus the
leave edge — its head in the tail component and its tail in the head
component; membership is decided by the `low`/`lim` interval of `u`, the
endpoint of the leave edge with the smaller `lim`. -/
def is_head_to_tail (g : AGraph) (e : Nat) (u : Vertex) (is_root_in_head : Bool) : Bool :=
  (is_root_in_head == inSubtreeU u (vertAt g (edgeAt g e).head)) &&
    (is_root_in_head != inSubtreeU u (vertAt g (edgeAt g e).tail))

/-- The prologue of `enter_edge`: look up the endpoints of the removed edge,
compute `is_root_in_head = u.lim < v.lim` and swap `u` and `v` when it is
false, returning the resulting `u` together with the flag. -/
def removedCtx (g : AGraph) (edge : Nat) : Option (Vertex × Bool) :=
  (edgeEndpoints g edge).map (fun th =>
    let u0 := vertAt g th.1
    let v0 := vertAt g th.2
    let is_root_in_head := decide (u0.lim < v0.lim)
    (if is_root_in_head then u0 else v0, is_root_in_head))

/-- The filtered iterator of `enter_edge`: all edge indices that are not tree
edges and satisfy `is_head_to_tail`, in edge-iteration (ascending) order. -/
def enterCandidates (g : AGraph) (u : Vertex) (is_root_in_head : Bool) : List Nat :=
  (List.range g.edges.length).filter
    (fun e => !(edgeAt g e).data.is_tree_edge && is_head_to_tail g e u is_root_in_head)

/-- `enter_edge` from `algorithm/p1_layering/mod.rs`.  `none` models the two
panics of the source: the endpoint lookup `unwrap` and the final `unwrap` of
`min_by` when no candidate exists. -/
def enter_edge (g : AGraph) (edge : Nat) (minimum_length : Int) : Option Nat :=
  match removedCtx g edge with
  | none => none
  | some (u, is_root_in_head) =>
      rustMinBy (fun e => slack g e minimum_length) (enterCandidates g u is_root_in_head)

/-- `leave_edge` from `algorithm/p1_layering/mod.rs`: the first edge in
iteration order whose `cut_value` is present and negative. -/
def leave_edge (g : AGraph) : Option Nat :=
  (List.range g.edges.length).find?
    (fun e => match (edgeAt g e).data.cut_value with
      | some cv => decide (cv < 0)
      | none => false)

/-- `normalize` from `algorithm/p1_layering/mod.rs`: subtract the minimum
rank from every rank.  On an empty graph the source `unwrap`s the `min()` of
an empty iterator, a panic, modelled by `none`. -/
def normalize (g : AGraph) : Option AGraph :=
  match listMinQ (g.verts.map Vertex.rank) with
  | none => none
  | some min_rank => some ⟨g.verts.map (fun v => { v with rank := v.rank - min_rank }), g.edges⟩

/-! ### Claim C5 — `normalize` on a non-empty graph -/

theorem foldl_min_map_sub (xs : List Int) (x m : Int) :
    (xs.map (fun r => r - m)).foldl min (x - m) = xs.foldl min x - m := by
  induction xs generalizing x with
  | nil => rfl
  | cons y ys ih =>
      simp only [List.map_cons, List.foldl_cons]
      rw [min_sub_sub_right x y m]
      exact ih (min x y)

theorem listMinQ_map_sub (m : Int) (l : List Int) :
    listMinQ (l.map (fun r => r - m)) = (listMinQ l).map (fun r => r - m) := by
  cases l with
  | nil => rfl
  | cons x xs =>
      simp only [listMinQ, List.map_cons, Option.map_some']
      exact congrArg some (foldl_min_map_sub xs x m)

theorem getD_map_rank_sub (l : List Vertex) (m : Int) (i : Nat) (hi : i < l.length) :
    (l.map (fun v => ({ v with rank := v.rank - m } : Vertex))).getD i ⟨0, 0, 0⟩ =
      { l.getD i ⟨0, 0, 0⟩ with rank := (l.getD i ⟨0, 0, 0⟩).rank - m } := by
  induction l generalizing i with
  | nil => simp at hi
  | cons x xs ih =>
      cases i with
      | zero => rfl
      | succ j =>
          simp only [List.map_cons, List.getD_cons_succ]
          exact ih j (Nat.lt_of_succ_lt_succ hi)

/-- C5: on every non-empty graph, `normalize` succeeds, the minimum of the
resulting ranks is `0`, and all pairwise rank differences are unchanged. -/
theorem normalize_min_zero_and_diffs (g : AGraph) (h : g.verts ≠ []) :
    ∃ g', normalize g = some g' ∧
      listMinQ (g'.verts.map Vertex.rank) = some 0 ∧
      g'.verts.length = g.verts.length ∧
      ∀ i j, i < g.verts.length → j < g.verts.length →
        (vertAt g' i).rank - (vertAt g' j).rank = (vertAt g i).rank - (vertAt g j).rank := by
  obtain ⟨x, xs, hx⟩ : ∃ x xs, g.verts = x :: xs := by
    cases hv : g.verts with
    | nil => exact absurd hv h
    | cons a l => exact ⟨a, l, rfl⟩
  have hmin : listMinQ (g.verts.map Vertex.rank) =
      some ((xs.map Vertex.rank).foldl min x.rank) := by
    rw [hx]; rfl
  refine ⟨⟨g.verts.map (fun v => { v with rank := v.rank - (xs.map Vertex.rank).foldl min x.rank }), g.edges⟩, ?_, ?_, ?_, ?_⟩
  · simp only [normalize, hmin]
  · have hcomp : (g.verts.map (fun v =>
        ({ v with rank := v.rank - (xs.map Vertex.rank).foldl min x.rank } : Vertex))).map Vertex.rank =
        (g.verts.map Vertex.rank).map (fun r => r - (xs.map Vertex.rank).foldl min x.rank) := by
      simp [List.map_map]
    rw [hcomp, listMinQ_map_sub, hmin]
    simp
  · simp
  · intro i j hi hj
    simp only [vertAt]
    rw [getD_map_rank_sub _ _ i hi, getD_map_rank_sub _ _ j hj]
    ring

/-- C5 witness: a concrete two-vertex graph with ranks `3` and `5`. -/
theorem normalize_min_zero_and_diffs_witness :
    (⟨[⟨3, 0, 0⟩, ⟨5, 0, 0⟩], []⟩ : AGraph).verts ≠ [] ∧
      ∃ g', normalize ⟨[⟨3, 0, 0⟩, ⟨5, 0, 0⟩], []⟩ = some g' ∧
        listMinQ (g'.verts.map Vertex.rank) = some 0 ∧
        g'.verts.length = (⟨[⟨3, 0, 0⟩, ⟨5, 0, 0⟩], []⟩ : AGraph).verts.length ∧
        ∀ i j, i < (⟨[⟨3, 0, 0⟩, ⟨5, 0, 0⟩], []⟩ : AGraph).verts.length →
          j < (⟨[⟨3, 0, 0⟩, ⟨5, 0, 0⟩], []⟩ : AGraph).verts.length →
          (vertAt g' i).rank - (vertAt g' j).rank =
            (vertAt ⟨[⟨3, 0, 0⟩, ⟨5, 0, 0⟩], []⟩ i).rank - (vertAt ⟨[⟨3, 0, 0⟩, ⟨5, 0, 0⟩], []⟩ j).rank :=
  ⟨by decide, normalize_min_zero_and_diffs ⟨[⟨3, 0, 0⟩, ⟨5, 0, 0⟩], []⟩ (by decide)⟩

/-! ### `rank` of `algorithm/p1_layering/mod.rs`

`rank` first builds a feasible tight tree (`feasible_tree`, defined in
`ranking.rs`, which is not among the sources at hand), then repeats
leave-edge/enter-edge/exchange while some tree edge has a negative cut value,
then normalizes.  The absent subroutines are passed as explicit function
parameters: `ft` stands for `feasible_tree` and `ex` for `exchange` (whose
updates `update_cutvalues`, `update_low_lim`, `update_ranks` live in absent
files).  The theorems below hold for every behaviour of these parameters, so
nothing about the missing code is assumed. -/

def rankLoopWith (ex : AGraph → Nat → Nat → Int → Option AGraph) :
    Nat → AGraph → Int → Option AGraph
  | 0, _, _ => none
  | fuel + 1, g, minimum_length =>
      match leave_edge g with
      | none => normalize g
      | some removed_edge =>
          match enter_edge g removed_edge minimum_length with
          | none => none
          | some swap_edge =>
              match ex g removed_edge swap_edge minimum_length with
              | none => none
              | some g' => rankLoopWith ex fuel g' minimum_length

def rankWith (ft : AGraph → Option AGraph) (ex : AGraph → Nat → Nat → Int → Option AGraph)
    (fuel : Nat) (g : AGraph) (minimum_length : Int) : Option AGraph :=
  match ft g with
  | none => none
  | some g1 => rankLoopWith ex fuel g1 minimum_length

/-- The empty graph: no vertices, no edges. -/
def emptyA : AGraph := ⟨[], []⟩

/-! ### Claim C6 — `rank` on the empty graph -/

/-- C6 (amended): running `rank` on the empty graph is not a no-op — it
fails, whatever the absent `feasible_tree` does on the empty graph (provided
it cannot invent vertices there), because `normalize` unwraps the `min()` of
an empty rank iterator.  `fuel` bounds the number of loop iterations; the
conclusion holds for every fuel. -/
theorem rank_empty_graph_panics (ft : AGraph → Option AGraph)
    (ex : AGraph → Nat → Nat → Int → Option AGraph) (fuel : Nat) (minimum_length : Int)
    (hft : ∀ g', ft emptyA = some g' → g' = emptyA) :
    rankWith ft ex fuel emptyA minimum_length = none := by
  unfold rankWith
  cases hcase : ft emptyA with
  | none => rfl
  | some g1 =>
      rw [hft g1 hcase]
      cases fuel with
      | zero => rfl
      | succ f => rfl

/-- C6 witness: the amended theorem applied to the identity behaviour of the
missing `feasible_tree` (the spec-prescribed behaviour on the empty graph:
with no vertices, steps 1–4 of the rank algorithm do nothing). -/
theorem rank_empty_graph_panics_witness :
    (∀ g', (fun g => some g) emptyA = some g' → g' = emptyA) ∧
      rankWith (fun g => some g) (fun g _ _ _ => some g) 3 emptyA 1 = none :=
  ⟨fun _ h => (Option.some.inj h).symm,
    rank_empty_graph_panics _ _ 3 1 (fun _ h => (Option.some.inj h).symm)⟩

/-- C6 counterexample: even when the missing `feasible_tree` succeeds as the
identity on the empty graph, `rank` does not return successfully on it. -/
theorem rank_empty_graph_not_noop :
    (rankWith (fun g => some g) (fun g _ _ _ => some g) 3 emptyA 1).isSome = false := by
  decide

/-! ### `FeasibleTree::rank` of `graphs/p1_layering/mod.rs` (claim C7) -/

/-- `FeasibleTree<T>` of the `graphs` module tree.  `cut_values` is a
`HashMap<(NodeIndex, NodeIndex), isize>`, modelled as an association list
(HashMap iteration order is arbitrary; the properties proved below are
order-independent).  The `graph`, `tree` and `ranks` fields are carried as
edge lists / a rank list — the loop of `rank` never touches any field. -/
structure FeasibleTreeG where
  graphEdges : List (Nat × Nat)
  treeEdges : List (Nat × Nat)
  ranks : List Int
  cut_values : List ((Nat × Nat) × Int)
  deriving DecidableEq

/-- `FeasibleTree::leave_edge`: the first cut-value entry with a negative
value, if any. -/
def leave_edgeG (t : FeasibleTreeG) : Option (Nat × Nat) :=
  (t.cut_values.find? (fun p => decide (p.2 < 0))).map Prod.fst

/-- The optimization loop of `FeasibleTree::rank`: the body is empty
(`while let Some(edge) = self.leave_edge() { }` — the comment in the source
says "swap edges and calculate cut value" but no code follows), so the state
never changes between iterations.  `fuel` counts loop iterations; `none`
means the loop is still running after `fuel` iterations.  The post-loop
completion (rank normalization and repackaging into a `ProperLayeredGraph`)
does not affect the termination property and is represented by returning the
unchanged state. -/
def ftRankLoop : Nat → FeasibleTreeG → Option FeasibleTreeG
  | 0, _ => none
  | fuel + 1, t =>
      match leave_edgeG t with
      | some _ => ftRankLoop fuel t
      | none => some t

/-- C7: the loop of `FeasibleTree::rank` performs no exchange, so it runs
forever exactly when some cut value is negative: with a negative entry the
loop never finishes at any fuel, and with no negative entry it finishes in
one iteration leaving the state unchanged. -/
theorem ftRank_empty_body_termination (t : FeasibleTreeG) :
    ((∃ p ∈ t.cut_values, p.2 < 0) → ∀ fuel, ftRankLoop fuel t = none) ∧
      ((∀ p ∈ t.cut_values, 0 ≤ p.2) → ∀ fuel, ftRankLoop (fuel + 1) t = some t) := by
  constructor
  · intro hneg fuel
    obtain ⟨q, hq⟩ : ∃ q, t.cut_values.find? (fun p => decide (p.2 < 0)) = some q := by
      obtain ⟨p, hp, hplt⟩ := hneg
      have : (t.cut_values.find? (fun p => decide (p.2 < 0))).isSome := by
        rw [List.find?_isSome]
        exact ⟨p, hp, by simpa using hplt⟩
      exact Option.isSome_iff_exists.mp this
    induction fuel with
    | zero => rfl
    | succ f ih => simp only [ftRankLoop, leave_edgeG, hq, Option.map_some']; exact ih
  · intro hpos fuel
    have hq : t.cut_values.find? (fun p => decide (p.2 < 0)) = none := by
      rw [List.find?_eq_none]
      intro p hp
      simpa using not_lt.mpr (hpos p hp)
    simp only [ftRankLoop, leave_edgeG, hq, Option.map_none']

/-- C7 witness: a feasible tree whose cut-value map holds the negative entry
`((0,1), −1)`; its `rank` loop is still running after five iterations. -/
theorem ftRank_empty_body_termination_witness :
    (∃ p ∈ (⟨[], [], [], [((0, 1), -1)]⟩ : FeasibleTreeG).cut_values, p.2 < 0) ∧
      ftRankLoop 5 ⟨[], [], [], [((0, 1), -1)]⟩ = none :=
  ⟨by decide, (ftRank_empty_body_termination ⟨[], [], [], [((0, 1), -1)]⟩).1 (by decide) 5⟩

/-! ### `from_vertices_and_edges` of `lib.rs` (claim C8) -/

/-- The graph built by `from_vertices_and_edges`: one node per listed vertex
(`nodes` records the external ids, in insertion order, so node index `i`
carries weight `Vertex::new(nodes[i])`) and one edge per listed pair, stored
as pairs of internal node indices. -/
structure RawBuilt where
  nodes : List Nat
  builtEdges : List (Nat × Nat)
  deriving DecidableEq

/-- The `id_map` HashMap build-up: vertex `vs[k]` is mapped to node index
`i + k`; a later insertion of the same key shadows the earlier one, which is
modelled by placing later bindings in front of the association list. -/
def buildIdMap : List Nat → Nat → List (Nat × Nat)
  | [], _ => []
  | v :: rest, i => buildIdMap rest (i + 1) ++ [(v, i)]

/-- The edge loop of `from_vertices_and_edges`: each endpoint is resolved by
`id_map.get(..).unwrap()` — `none` models the panic on an unknown vertex. -/
def resolveEdges (idMap : List (Nat × Nat)) : List (Nat × Nat) → Option (List (Nat × Nat))
  | [] => some []
  | (t, h) :: rest =>
      match List.lookup t idMap, List.lookup h idMap with
      | some a, some b =>
          match resolveEdges idMap rest with
          | some es => some ((a, b) :: es)
          | none => none
      | _, _ => none

def from_vertices_and_edges (vertices : List Nat) (edges : List (Nat × Nat)) :
    Option RawBuilt :=
  match resolveEdges (buildIdMap vertices 0) edges with
  | none => none
  | some es => some ⟨vertices, es⟩

theorem lookup_append_nat (v : Nat) (l1 l2 : List (Nat × Nat)) :
    List.lookup v (l1 ++ l2) = ((List.lookup v l1).rec (List.lookup v l2) (fun b => some b)) := by
  induction l1 with
  | nil => simp [List.lookup]
  | cons p rest ih =>
      cases hp : v == p.1 with
      | true => simp [List.lookup, hp]
      | false => simpa [List.lookup, hp] using ih

theorem lookup_buildIdMap_isSome (vs : List Nat) (i v : Nat) :
    (List.lookup v (buildIdMap vs i)).isSome = true ↔ v ∈ vs := by
  induction vs generalizing i with
  | nil => simp [buildIdMap, List.lookup]
  | cons w rest ih =>
      simp only [buildIdMap, lookup_append_nat]
      cases hl : List.lookup v (buildIdMap rest (i + 1)) with
      | some b =>
          simp only []
          constructor
          · intro _
            exact List.mem_cons_of_mem w ((ih (i + 1)).mp (by simp [hl]))
          · intro _; rfl
      | none =>
          have hvrest : ¬ v ∈ rest := fun hmem => by
            have := (ih (i + 1)).mpr hmem
            rw [hl] at this
            simp at this
          cases hv : v == w with
          | true =>
              have : v = w := by simpa using hv
              subst this
              simp [List.lookup, hv]
          | false =>
              have : ¬ v = w := by simpa using hv
              simp [List.lookup, hv, this, hvrest]

theorem resolveEdges_all_known (idMap : List (Nat × Nat)) (es : List (Nat × Nat))
    (h : ∀ p ∈ es, (List.lookup p.1 idMap).isSome = true ∧ (List.lookup p.2 idMap).isSome = true) :
    ∃ es', resolveEdges idMap es = some es' ∧ es'.length = es.length := by
  induction es with
  | nil => exact ⟨[], rfl, rfl⟩
  | cons p rest ih =>
      obtain ⟨h1, h2⟩ := h p (List.mem_cons_self p rest)
      obtain ⟨a, ha⟩ := Option.isSome_iff_exists.mp h1
      obtain ⟨b, hb⟩ := Option.isSome_iff_exists.mp h2
      obtain ⟨es', hes', hlen⟩ := ih (fun q hq => h q (List.mem_cons_of_mem p hq))
      refine ⟨(a, b) :: es', ?_, by simp [hlen]⟩
      obtain ⟨t, hd⟩ := p
      simp only [resolveEdges] at *
      rw [ha, hb, hes']

theorem resolveEdges_unknown (idMap : List (Nat × Nat)) (es : List (Nat × Nat))
    (h : ∃ p ∈ es, List.lookup p.1 idMap = none ∨ List.lookup p.2 idMap = none) :
    resolveEdges idMap es = none := by
  induction es with
  | nil => obtain ⟨p, hp, _⟩ := h; simp at hp
  | cons q rest ih =>
      obtain ⟨t, hd⟩ := q
      obtain ⟨p, hp, hbad⟩ := h
      rcases List.mem_cons.mp hp with heq | hmem
      · subst heq
        simp only [resolveEdges]
        rcases hbad with hb | hb <;> rw [hb] <;> cases List.lookup t idMap <;>
          cases hx2 : List.lookup hd idMap <;> simp_all [resolveEdges]
      · simp only [resolveEdges]
        cases List.lookup t idMap with
        | none => rfl
        | some a =>
            cases List.lookup hd idMap with
            | none => rfl
            | some b => rw [ih ⟨p, hmem, hbad⟩]

/-- C8: `from_vertices_and_edges` fails fatally exactly when some edge
references a vertex absent from the vertex list; when every endpoint is
listed it returns a builder whose graph has one node per listed vertex and
one edge per listed pair. -/
theorem from_vertices_and_edges_spec (vertices : List Nat) (edges : List (Nat × Nat)) :
    ((∀ p ∈ edges, p.1 ∈ vertices ∧ p.2 ∈ vertices) →
      ∃ g, from_vertices_and_edges vertices edges = some g ∧
        g.nodes.length = vertices.length ∧ g.builtEdges.length = edges.length) ∧
      ((∃ p ∈ edges, p.1 ∉ vertices ∨ p.2 ∉ vertices) →
        from_vertices_and_edges vertices edges = none) := by
  constructor
  · intro hall
    obtain ⟨es', hes', hlen⟩ := resolveEdges_all_known (buildIdMap vertices 0) edges
      (fun p hp => ⟨(lookup_buildIdMap_isSome vertices 0 p.1).mpr (hall p hp).1,
        (lookup_buildIdMap_isSome vertices 0 p.2).mpr (hall p hp).2⟩)
    exact ⟨⟨vertices, es'⟩, by simp [from_vertices_and_edges, hes'], rfl, hlen⟩
  · intro hbad
    obtain ⟨p, hp, hor⟩ := hbad
    have : resolveEdges (buildIdMap vertices 0) edges = none := by
      refine resolveEdges_unknown _ _ ⟨p, hp, ?_⟩
      rcases hor with hh | hh
      · exact Or.inl (Option.not_isSome_iff_eq_none.mp
          (fun hs => hh ((lookup_buildIdMap_isSome vertices 0 p.1).mp hs)))
      · exact Or.inr (Option.not_isSome_iff_eq_none.mp
          (fun hs => hh ((lookup_buildIdMap_isSome vertices 0 p.2).mp hs)))
    simp [from_vertices_and_edges, this]

/-- C8 witness: with vertices `[7, 9]` the edge `(7, 9)` builds a two-node
one-edge graph; with vertices `[7]` the same edge panics. -/
theorem from_vertices_and_edges_spec_witness :
    (∃ g, from_vertices_and_edges [7, 9] [(7, 9)] = some g ∧
      g.nodes.length = 2 ∧ g.builtEdges.length = 1) ∧
      from_vertices_and_edges [7] [(7, 9)] = none :=
  ⟨(from_vertices_and_edges_spec [7, 9] [(7, 9)]).1 (by decide),
    (from_vertices_and_edges_spec [7] [(7, 9)]).2 ⟨(7, 9), by decide, by decide⟩⟩

/-! ### `UnlayeredGraph::initial_ranking` of `graphs/p1_layering/mod.rs`
(claim C4) -/

/-- The unlayered input graph of the `graphs` module tree: node indices
`0 .. nverts`, edges as `(tail, head)` pairs.  Node weights play no role in
the ranking. -/
structure GGraph where
  nverts : Nat
  gedges : List (Nat × Nat)
  deriving DecidableEq

/-- `initial_ranking`, parameterized by the topological order returned by
`petgraph::algo::toposort` (an arbitrary topological order; the `scanned`
assertion of the source holds for every such order and changes nothing).
The source computes, for vertex `v`,
`rank(v) = incoming ranks mapped through (r + 1), max, default 0` — note the
literal `r + 1`: `minimum_length` is not used in this computation (it is only
stored alongside the ranks for later slack computations); the parameter is
kept to mirror the signature.  Ranks are accumulated in a map, modelled as an
association list with the newest binding first. -/
def initial_ranking (g : GGraph) (minimum_length : Nat) (order : List Nat) :
    List (Nat × Int) :=
  order.foldl (fun ranks v =>
    let incoming := g.gedges.filterMap (fun e => if e.2 = v then some e.1 else none)
    let rank := maxOr0 (incoming.filterMap (fun u => (List.lookup u ranks).map (fun r => r + 1)))
    (v, rank) :: ranks) []

/-- C4: the failing input — a single edge `0 → 1` with `minimum_length = 2`
(topological order `[0, 1]` is the only one).  `initial_ranking` assigns
rank `1` to vertex `1`, because the source adds `1` rather than
`minimum_length`; the claimed formula `max(0, max over incoming of
rank(u) + minimum_length)` would give `2`, and the claimed edge property
`rank(head) − rank(tail) ≥ minimum_length` fails: `1 − 0 < 2`. -/
theorem initial_ranking_ignores_minimum_length :
    List.lookup 1 (initial_ranking ⟨2, [(0, 1)]⟩ 2 [0, 1]) = some 1 ∧
      List.lookup 0 (initial_ranking ⟨2, [(0, 1)]⟩ 2 [0, 1]) = some 0 ∧
      ¬ ((1 : Int) - 0 ≥ 2) := by decide

/-! ### Claim C2 — `enter_edge` returns the first minimum-slack candidate -/

theorem foldl_min_char (f : Nat → Int) (xs : List Nat) (x : Nat)
    (hs : (x :: xs).Pairwise (· < ·)) :
    xs.foldl (fun acc y => if f y < f acc then y else acc) x ∈ x :: xs ∧
      (∀ y ∈ x :: xs, f (xs.foldl (fun acc y => if f y < f acc then y else acc) x) ≤ f y) ∧
      (∀ y ∈ x :: xs, f y = f (xs.foldl (fun acc y => if f y < f acc then y else acc) x) →
        xs.foldl (fun acc y => if f y < f acc then y else acc) x ≤ y) := by
  induction xs generalizing x with
  | nil =>
      simp only [List.foldl_nil]
      refine ⟨List.mem_singleton_self x, ?_, ?_⟩
      · intro y hy
        rw [List.mem_singleton.mp hy]
      · intro y hy _
        rw [List.mem_singleton.mp hy]
  | cons b rest ih =>
      obtain ⟨hx, hs'⟩ := List.pairwise_cons.mp hs
      obtain ⟨hb, hrest⟩ := List.pairwise_cons.mp hs'
      simp only [List.foldl_cons]
      by_cases hfb : f b < f x
      · simp only [if_pos hfb]
        obtain ⟨m1, m2, m3⟩ := ih b hs'
        refine ⟨List.mem_cons_of_mem x m1, ?_, ?_⟩
        · intro y hy
          rcases List.mem_cons.mp hy with hy | hy
          · rw [hy]
            exact le_trans (m2 b (List.mem_cons_self b rest)) (le_of_lt hfb)
          · exact m2 y hy
        · intro y hy hfy
          rcases List.mem_cons.mp hy with hy | hy
          · have hfx : f x = f (rest.foldl (fun acc y => if f y < f acc then y else acc) b) :=
              hy ▸ hfy
            have h1 : f (rest.foldl (fun acc y => if f y < f acc then y else acc) b) ≤ f b :=
              m2 b (List.mem_cons_self b rest)
            exact absurd hfb (not_lt.mpr (hfx.symm ▸ h1))
          · exact m3 y hy hfy
      · simp only [if_neg hfb]
        have hxb : f x ≤ f b := not_lt.mp hfb
        have hpair : (x :: rest).Pairwise (· < ·) :=
          List.pairwise_cons.mpr ⟨fun y hy => hx y (List.mem_cons_of_mem b hy), hrest⟩
        obtain ⟨m1, m2, m3⟩ := ih x hpair
        have hmem : rest.foldl (fun acc y => if f y < f acc then y else acc) x ∈ x :: b :: rest := by
          rcases List.mem_cons.mp m1 with hz | hz
          · rw [hz]
            exact List.mem_cons_self _ _
          · exact List.mem_cons_of_mem x (List.mem_cons_of_mem b hz)
        refine ⟨hmem, ?_, ?_⟩
        · intro y hy
          rcases List.mem_cons.mp hy with hy | hy
          · rw [hy]
            exact m2 x (List.mem_cons_self x rest)
          · rcases List.mem_cons.mp hy with hy | hy
            · rw [hy]
              exact le_trans (m2 x (List.mem_cons_self x rest)) hxb
            · exact m2 y (List.mem_cons_of_mem x hy)
        · intro y hy hfy
          rcases List.mem_cons.mp hy with hy | hy
          · rw [hy]
            exact m3 x (List.mem_cons_self x rest) (hy ▸ hfy)
          · rcases List.mem_cons.mp hy with hy | hy
            · have hfbz : f b = f (rest.foldl (fun acc y => if f y < f acc then y else acc) x) :=
                hy ▸ hfy
              have hfz : f x = f (rest.foldl (fun acc y => if f y < f acc then y else acc) x) :=
                le_antisymm (hfbz ▸ hxb) (m2 x (List.mem_cons_self x rest))
              have hzx : rest.foldl (fun acc y => if f y < f acc then y else acc) x ≤ x :=
                m3 x (List.mem_cons_self x rest) hfz
              rw [hy]
              rcases List.mem_cons.mp m1 with hz | hz
              · rw [hz]
                exact le_of_lt (hx b (List.mem_cons_self b rest))
              · exact absurd (hx _ (List.mem_cons_of_mem b hz)) (not_lt.mpr hzx)
            · exact m3 y (List.mem_cons_of_mem x hy) hfy

/-- Rust `min_by` on a strictly ascending list of indices returns `e` exactly
when `e` is a minimum of the key `f` and precedes (has the least index
among) all other minima. -/
theorem rustMinBy_eq_some_iff (f : Nat → Int) (l : List Nat)
    (hl : l.Pairwise (· < ·)) (e : Nat) :
    rustMinBy f l = some e ↔
      e ∈ l ∧ (∀ y ∈ l, f e ≤ f y) ∧ (∀ y ∈ l, f y = f e → e ≤ y) := by
  cases l with
  | nil => simp [rustMinBy]
  | cons x xs =>
      obtain ⟨m1, m2, m3⟩ := foldl_min_char f xs x hl
      constructor
      · intro h
        rw [← Option.some.inj h]
        exact ⟨m1, m2, m3⟩
      · rintro ⟨hmem, hmin, htie⟩
        have hfz : f e = f (xs.foldl (fun acc y => if f y < f acc then y else acc) x) :=
          le_antisymm (hmin _ m1) (m2 e hmem)
        have h1 : xs.foldl (fun acc y => if f y < f acc then y else acc) x ≤ e :=
          m3 e hmem hfz
        have h2 : e ≤ xs.foldl (fun acc y => if f y < f acc then y else acc) x :=
          htie _ m1 hfz.symm
        exact congrArg some (le_antisymm h1 h2)

theorem enterCandidates_sorted (g : AGraph) (u : Vertex) (is_root_in_head : Bool) :
    (enterCandidates g u is_root_in_head).Pairwise (· < ·) :=
  List.Pairwise.sublist (List.filter_sublist _) (List.pairwise_lt_range _)

/-- C2: `enter_edge` applied to a leave edge with existing endpoints returns
exactly the candidate — non-tree, `is_head_to_tail` with respect to the
`low`/`lim` intervals of the smaller-`lim` endpoint `u` — with minimum slack
and, among equal-slack candidates, the least edge index, i.e. the first in
edge-iteration order. -/
theorem enter_edge_min_slack_first (g : AGraph) (removed : Nat) (minimum_length : Int)
    (u : Vertex) (is_root_in_head : Bool)
    (hctx : removedCtx g removed = some (u, is_root_in_head)) (e : Nat) :
    enter_edge g removed minimum_length = some e ↔
      e ∈ enterCandidates g u is_root_in_head ∧
        (∀ y ∈ enterCandidates g u is_root_in_head,
          slack g e minimum_length ≤ slack g y minimum_length) ∧
        (∀ y ∈ enterCandidates g u is_root_in_head,
          slack g y minimum_length = slack g e minimum_length → e ≤ y) := by
  unfold enter_edge
  rw [hctx]
  exact rustMinBy_eq_some_iff _ _ (enterCandidates_sorted g u is_root_in_head) e

/-- A two-vertex example: vertex `0` is the tree root (rank 0, low 1,
lim 2), vertex `1` its child (rank 1, low 1, lim 1); edge `0` is the tree
edge `0 → 1` with weight 1 and cut value `−1`, edge `1` the non-tree edge
`1 → 0` with weight 2. -/
def exG : AGraph :=
  ⟨[⟨0, 1, 2⟩, ⟨1, 1, 1⟩],
    [⟨0, 1, ⟨1, some (-1), true⟩⟩, ⟨1, 0, ⟨2, none, false⟩⟩]⟩

/-- C2 witness: on `exG` with leave edge `0`, the characterization produces
the sole candidate, edge `1`. -/
theorem enter_edge_min_slack_first_witness :
    removedCtx exG 0 = some (⟨1, 1, 1⟩, false) ∧ enter_edge exG 0 1 = some 1 :=
  ⟨by decide,
    (enter_edge_min_slack_first exG 0 1 ⟨1, 1, 1⟩ false (by decide) 1).mpr (by decide)⟩

/-! ### Claim C9 — the final `unwrap` of `enter_edge` under a negative cut
value -/

/-- Whether an edge record crosses the cut from the head-side component to
the tail-side component — the same test `is_head_to_tail` applies to an edge
index (they agree definitionally on `edgeAt`). -/
def crossHeadToTail (g : AGraph) (u : Vertex) (is_root_in_head : Bool) (r : ERec) : Bool :=
  (is_root_in_head == inSubtreeU u (vertAt g r.head)) &&
    (is_root_in_head != inSubtreeU u (vertAt g r.tail))

/-- Whether an edge record crosses the cut from the tail-side component to
the head-side component (the direction of the removed tree edge itself). -/
def crossTailToHead (g : AGraph) (u : Vertex) (is_root_in_head : Bool) (r : ERec) : Bool :=
  (is_root_in_head == inSubtreeU u (vertAt g r.tail)) &&
    (is_root_in_head != inSubtreeU u (vertAt g r.head))

def sumWeights (l : List ERec) : Int :=
  (l.map (fun r => (r.data.weight : Int))).sum

/-- Modelled from the spec: the cut-value initialisation (`init_cutvalues` /
`cut_values.rs`) is not among the sources at hand.  The glossary defines the
cut value of a tree edge as the marginal change in total weighted edge
length when the edge is removed and the tree re-tightened, which is the
classical sum: the weights of all edges crossing the cut in the direction of
the removed edge (tail side to head side — the removed edge itself among
them, giving the `weight(e)` term of the spec's step 4) minus the weights of
those crossing from head side to tail side.  (Step 4 of the spec swaps the
`f`/`g` labels relative to this glossary reading; the glossary orientation
is the one under which negative cut values signal an improving exchange and
is used here.)  Side membership is decided by the same `low`/`lim` interval
test that `enter_edge` uses. -/
def cut_value_modelled (g : AGraph) (edge : Nat) : Int :=
  match removedCtx g edge with
  | none => 0
  | some (u, is_root_in_head) =>
      sumWeights (g.edges.filter (fun r => crossTailToHead g u is_root_in_head r)) -
        sumWeights (g.edges.filter (fun r => crossHeadToTail g u is_root_in_head r))

theorem sumWeights_nonneg (l : List ERec) : 0 ≤ sumWeights l := by
  apply List.sum_nonneg
  intro x hx
  obtain ⟨r, _, hr⟩ := List.mem_map.mp hx
  rw [← hr]
  exact Int.natCast_nonneg r.data.weight

/-- C9: when no tree edge crosses from the head side to the tail side (true
of every spanning tree with a valid `low`/`lim` labelling once the leave
edge is removed) and the modelled cut value of the leave edge is negative,
some non-tree edge crosses from head side to tail side, so `enter_edge`
finds a candidate and its final `unwrap` cannot panic. -/
theorem enter_edge_unwrap_safe (g : AGraph) (removed : Nat) (minimum_length : Int)
    (u : Vertex) (is_root_in_head : Bool)
    (hctx : removedCtx g removed = some (u, is_root_in_head))
    (htree : ∀ r ∈ g.edges, r.data.is_tree_edge = true →
      crossHeadToTail g u is_root_in_head r = false)
    (hcut : cut_value_modelled g removed < 0) :
    ∃ e, enter_edge g removed minimum_length = some e := by
  simp only [cut_value_modelled, hctx] at hcut
  have hB : 0 < sumWeights (g.edges.filter (fun r => crossHeadToTail g u is_root_in_head r)) := by
    have hA : 0 ≤ sumWeights (g.edges.filter (fun r => crossTailToHead g u is_root_in_head r)) :=
      sumWeights_nonneg _
    omega
  have hBne : g.edges.filter (fun r => crossHeadToTail g u is_root_in_head r) ≠ [] := by
    intro hnil
    rw [hnil] at hB
    exact absurd hB (by simp [sumWeights])
  obtain ⟨r, hrB⟩ := List.exists_mem_of_ne_nil _ hBne
  have hrmem : r ∈ g.edges := List.mem_of_mem_filter hrB
  have hrcross : crossHeadToTail g u is_root_in_head r = true := by
    simpa using List.of_mem_filter hrB
  have hrnotree : r.data.is_tree_edge = false := by
    cases htr : r.data.is_tree_edge with
    | false => rfl
    | true => exact absurd hrcross (by simp [htree r hrmem htr])
  obtain ⟨⟨i, hi⟩, hgetr⟩ := List.mem_iff_get.mp hrmem
  have hedgeAt : edgeAt g i = r := by
    simp only [edgeAt, List.getD_eq_getD_get?, List.get?_eq_get hi, hgetr, Option.getD_some]
  have hiC : i ∈ enterCandidates g u is_root_in_head := by
    unfold enterCandidates
    rw [List.mem_filter]
    refine ⟨List.mem_range.mpr hi, ?_⟩
    have hisht : is_head_to_tail g i u is_root_in_head = true := by
      unfold is_head_to_tail
      rw [hedgeAt]
      exact hrcross
    simp [hedgeAt, hrnotree, hisht]
  simp only [enter_edge, hctx]
  cases hc : enterCandidates g u is_root_in_head with
  | nil => rw [hc] at hiC; exact absurd hiC (List.not_mem_nil i)
  | cons x xs => exact ⟨_, rfl⟩

/-- C9 witness: on `exG`, the tree edge `0` has modelled cut value `−1`
(weight 1 forward against weight 2 back), no tree edge crosses head side to
tail side, and `enter_edge` indeed finds a candidate. -/
theorem enter_edge_unwrap_safe_witness :
    removedCtx exG 0 = some (⟨1, 1, 1⟩, false) ∧
      cut_value_modelled exG 0 < 0 ∧
      ∃ e, enter_edge exG 0 1 = some e :=
  ⟨by decide, by decide,
    enter_edge_unwrap_safe exG 0 1 ⟨1, 1, 1⟩ false (by decide) (by decide) (by decide)⟩

/-! ### `TightTreeDFS::tight_tree` of `phases/p1_layering/tight_tree_dfs.rs`
(claims C1 and C10) -/

/-- The ranked graph handed to the DFS (`InitialRanks` of the `phases`
module tree): the underlying `StableDiGraph` (vertex count and edge list,
edge index = list position) and a rank per vertex index, plus the stored
`minimum_length`. -/
structure InitialRanks where
  nverts : Nat
  pedges : List (Nat × Nat)
  ranks : List Int
  minimum_length : Int
  deriving DecidableEq

/-- Modelled from the spec: the `Slack` trait implementation used by
`ranked.slack(edge)` (the `traits` module is not among the sources at hand);
the spec defines `slack(e) = rank(head(e)) − rank(tail(e)) − minimum_length`. -/
def slackP (r : InitialRanks) (e : Nat) : Int :=
  let p := r.pedges.getD e (0, 0)
  r.ranks.getD p.2 0 - r.ranks.getD p.1 0 - r.minimum_length

/-- The DFS state: the `vertices` and `edges` sets of the `TightTreeDFS`
struct together with the `visited` edge set threaded through the recursion.
Rust `HashSet`s are modelled as duplicate-free lists (every insertion in the
source is guarded by a membership test). -/
structure DfsState where
  vertices : List Nat
  edges : List Nat
  visited : List Nat
  deriving DecidableEq

/-- `graph.edges_directed(vertex, Incoming).chain(edges_directed(vertex,
Outgoing))`: the edge indices whose head is `vertex`, then those whose tail
is `vertex`.  petgraph iterates each adjacency list in reverse insertion
order; the embedding fixes ascending index order — the collected
vertex/edge sets and the returned count proved about below are the same for
every iteration order, because every incident edge of every reached vertex
is examined exactly once. -/
def incidentEdges (r : InitialRanks) (v : Nat) : List Nat :=
  (List.range r.pedges.length).filter (fun e => (r.pedges.getD e (0, 0)).2 = v) ++
    (List.range r.pedges.length).filter (fun e => (r.pedges.getD e (0, 0)).1 = v)

/-- `TightTreeDFS::tight_tree`: starting `node_count` at 1, insert the
vertex if absent, then for each incident edge that is not yet visited, mark
it visited and either recurse through it (when it is already a tree edge) or,
when its slack is 0, insert it as a tree edge and recurse, adding the
recursive count.  The Rust recursion terminates because every recursive call
happens immediately after a previously unvisited edge is inserted into
`visited`; the embedding takes explicit `fuel` and returns `none` only on
fuel exhaustion (fuel exceeding the edge count is always sufficient). -/
def tight_tree (r : InitialRanks) : Nat → Nat → DfsState → Option (Nat × DfsState)
  | 0, _, _ => none
  | fuel + 1, vertex, st0 =>
      let st1 := if vertex ∈ st0.vertices then st0
        else { st0 with vertices := vertex :: st0.vertices }
      (incidentEdges r vertex).foldl
        (fun acc e =>
          match acc with
          | none => none
          | some (node_count, st) =>
              let p := r.pedges.getD e (0, 0)
              let other := if p.1 = vertex then p.2 else p.1
              if e ∈ st.visited then some (node_count, st)
              else
                let st2 := { st with visited := e :: st.visited }
                if e ∈ st2.edges then
                  match tight_tree r fuel other st2 with
                  | none => none
                  | some (c, st3) => some (node_count + c, st3)
                else if slackP r e = 0 then
                  let st3 := { st2 with edges := e :: st2.edges }
                  match tight_tree r fuel other st3 with
                  | none => none
                  | some (c, st4) => some (node_count + c, st4)
                else some (node_count, st2))
        (some (1, st1))

/-- The diamond: vertices `0,1,2,3`, edges `0→1, 0→2, 1→3, 2→3`, the
longest-path initial ranks `0,1,1,2` and `minimum_length = 1`.  Every edge
has slack 0 and the four edges form the undirected cycle `0-1-3-2-0`. -/
def diamond : InitialRanks := ⟨4, [(0, 1), (0, 2), (1, 3), (2, 3)], [0, 1, 1, 2], 1⟩

/-- C1: evaluating the DFS at the failing input.  Starting from vertex `0`
with empty tree and visited sets, the DFS reaches all `|V| = 4` vertices
(so the `make_tight` driver, which loops while the returned count is below
`|V|`, stops here), and the collected edge set consists of all four tight
edges — `|V|` of them, not `|V|−1`, and they contain an undirected cycle,
so they do not form a spanning tree, although each does have slack 0. -/
theorem tight_tree_diamond_not_spanning_tree :
    tight_tree diamond 20 0 ⟨[], [], []⟩ =
        some (5, ⟨[2, 3, 1, 0], [1, 3, 2, 0], [1, 3, 2, 0]⟩) ∧
      (∀ e ∈ ([1, 3, 2, 0] : List Nat), slackP diamond e = 0) ∧
      ([2, 3, 1, 0] : List Nat).length = diamond.nverts ∧
      ([1, 3, 2, 0] : List Nat).length ≠ diamond.nverts - 1 := by
  decide

/-- C10: evaluating the DFS at the failing input.  The returned value is
`5 = 1 + 4` (one plus the number of edges traversed), while the tree holds
only `4` distinct vertices: the returned count differs from
`self.vertices.len()`. -/
theorem tight_tree_count_not_vertex_count :
    ∃ p, tight_tree diamond 20 0 ⟨[], [], []⟩ = some p ∧
      p.1 = 5 ∧ p.2.vertices.length = 4 ∧ p.1 ≠ p.2.vertices.length :=
  ⟨(5, ⟨[2, 3, 1, 0], [1, 3, 2, 0], [1, 3, 2, 0]⟩), by decide, by decide, by decide, by decide⟩

end RustSugiyama
